import Mathlib

set_option maxRecDepth 8000
set_option linter.unusedVariables false

/-!
Shallow embedding of the byte-level BPE tokenizer in `src/bpe/base.py` and
`src/bpe/basic.py`.

Python strings are modelled as `List Char` (a sequence of Unicode scalar
values), Python `bytes` as `List Nat` (each element the byte value), and a
Python `dict` as an insertion-ordered association list `List (key × value)`
with unique keys: `dictGet` returns the value stored at a key, `dictInsert`
updates the value in place if the key is present and appends otherwise,
exactly as Python dict assignment behaves.  Exceptions are modelled with
`Except PyErr`.
-/

/-- The exception classes the source can raise, in the taxonomy of the spec:
`assertionError` covers InvalidArgument (`train` with `vocab_size < 256`) and
FormatError (version mismatch in `load`); `valueError` covers ParseError
(malformed line or non-integer field while reading the model file);
`keyError` covers UnknownTokenId (`decode` of an id absent from the vocab);
`typeError` is raised by CPython itself on a call-convention or
operand-type violation. -/
inductive PyErr where
  | typeError
  | valueError
  | keyError
  | assertionError
deriving DecidableEq

deriving instance DecidableEq for Except

/-- Python dict lookup `d[k]` / `d.get(k)`: the value at the first (unique)
occurrence of the key. -/
def dictGet {α β : Type} [DecidableEq α] : List (α × β) → α → Option β
  | [], _ => none
  | p :: d, key => if p.1 = key then some p.2 else dictGet d key

/-- Python dict assignment `d[k] = v`: update the value in place when the key
is already present, append the new binding otherwise (insertion order is
preserved, as for Python dicts). -/
def dictInsert {α β : Type} [DecidableEq α] : List (α × β) → α → β → List (α × β)
  | [], key, val => [(key, val)]
  | p :: d, key, val =>
    if p.1 = key then (p.1, val) :: d else p :: dictInsert d key val

/-- ASCII whitespace recognised by Python `str.strip()` / `str.split()`.
(Python also strips some non-ASCII Unicode whitespace; no claim in this
development involves such characters, so the ASCII subset suffices.) -/
def isPySpace (c : Char) : Bool :=
  c = ' ' ∨ c = '\t' ∨ c = '\n' ∨ c = '\r' ∨ c = '\x0b' ∨ c = '\x0c'

/-- Python `s.strip()`: remove leading and trailing whitespace. -/
def pyStrip (s : List Char) : List Char :=
  ((s.dropWhile isPySpace).reverse.dropWhile isPySpace).reverse

/-- Worker for `pySplit`: `cur` holds the characters of the current word in
reverse order. -/
def pySplitAux : List Char → List Char → List (List Char)
  | [], cur => if cur = [] then [] else [cur.reverse]
  | c :: rest, cur =>
    if isPySpace c then
      if cur = [] then pySplitAux rest [] else cur.reverse :: pySplitAux rest []
    else pySplitAux rest (c :: cur)

/-- Python `s.split()` with no argument: split on runs of whitespace,
discarding empty fields. -/
def pySplit (s : List Char) : List (List Char) :=
  pySplitAux s []

/-- Python file-object `f.readline()`: the consumed line (including the
terminating newline when one is present) together with the remaining
content.  At end of file it returns the empty string. -/
def pyReadLine : List Char → List Char × List Char
  | [] => ([], [])
  | c :: rest =>
    if c = '\n' then (['\n'], rest)
    else
      let (l, r) := pyReadLine rest
      (c :: l, r)

/-- Worker for `pyLines`: `cur` holds the current line in reverse order. -/
def pyLinesAux : List Char → List Char → List (List Char)
  | [], cur => if cur = [] then [] else [cur.reverse]
  | c :: rest, cur =>
    if c = '\n' then (cur.reverse ++ ['\n']) :: pyLinesAux rest []
    else pyLinesAux rest (c :: cur)

/-- Python `for line in f:` over the remaining content: the remaining lines,
each including its terminating newline (the last line may lack one); empty
remaining content yields no lines. -/
def pyLines (s : List Char) : List (List Char) :=
  pyLinesAux s []

/-- Python `int(s)` on a whitespace-free token: the decimal value when every
character is a digit, `ValueError` otherwise.  (Python `int` also accepts a
sign, underscores and non-ASCII digits; no claim depends on those forms, and
in particular every integer written by `save` is a plain decimal numeral.) -/
def pyInt (s : List Char) : Except PyErr Nat :=
  if s ≠ [] ∧ s.all (·.isDigit) then
    .ok (s.foldl (fun a c => 10 * a + (c.toNat - 48)) 0)
  else .error .valueError

/-- Python `str(n)` for a natural number: its decimal numeral. -/
def natToString (n : Nat) : List Char :=
  Nat.toDigits 10 n

/-- The Unicode replacement character U+FFFD used by `errors="replace"`. -/
def replChar : Char := '�'

/-- Python `s.encode("utf-8")` for a single scalar value: its UTF-8 bytes. -/
def utf8EncodeChar (c : Char) : List Nat :=
  let n := c.toNat
  if n < 0x80 then [n]
  else if n < 0x800 then [0xC0 + n / 64, 0x80 + n % 64]
  else if n < 0x10000 then
    [0xE0 + n / 4096, 0x80 + n / 64 % 64, 0x80 + n % 64]
  else
    [0xF0 + n / 262144, 0x80 + n / 4096 % 64, 0x80 + n / 64 % 64, 0x80 + n % 64]

/-- Python `text.encode("utf-8")`: concatenation of the per-character UTF-8
byte sequences.  (A Python `str` holding a lone surrogate cannot be encoded;
`Char` excludes surrogates, so every modelled text is encodable, matching
the spec remark that any text is encodable in the byte alphabet.) -/
def utf8Encode (s : List Char) : List Nat :=
  (s.map utf8EncodeChar).flatten

/-- One step of UTF-8 decoding with `errors="replace"`: given the current
byte `b` and the bytes after it, produce the decoded character (U+FFFD for an
ill-formed sequence) and the remaining input.  The decoding is strict
(overlong forms, surrogates and out-of-range leads rejected) and on the first
invalid byte the bytes consumed so far become one `replChar` and decoding
resumes at the offending byte, the maximal-subpart policy of CPython. -/
def utf8Step (b : Nat) (rest : List Nat) : Char × List Nat :=
  if b < 0x80 then (Char.ofNat b, rest)
  else if b < 0xC2 then (replChar, rest)
  else if b ≤ 0xDF then
    match rest with
    | [] => (replChar, [])
    | b1 :: rest1 =>
      if 0x80 ≤ b1 ∧ b1 ≤ 0xBF then
        (Char.ofNat ((b - 0xC0) * 64 + (b1 - 0x80)), rest1)
      else (replChar, b1 :: rest1)
  else if b ≤ 0xEF then
    let lo := if b = 0xE0 then 0xA0 else 0x80
    let hi := if b = 0xED then 0x9F else 0xBF
    match rest with
    | [] => (replChar, [])
    | b1 :: rest1 =>
      if lo ≤ b1 ∧ b1 ≤ hi then
        match rest1 with
        | [] => (replChar, [])
        | b2 :: rest2 =>
          if 0x80 ≤ b2 ∧ b2 ≤ 0xBF then
            (Char.ofNat ((b - 0xE0) * 4096 + (b1 - 0x80) * 64 + (b2 - 0x80)), rest2)
          else (replChar, b2 :: rest2)
      else (replChar, b1 :: rest1)
  else if b ≤ 0xF4 then
    let lo := if b = 0xF0 then 0x90 else 0x80
    let hi := if b = 0xF4 then 0x8F else 0xBF
    match rest with
    | [] => (replChar, [])
    | b1 :: rest1 =>
      if lo ≤ b1 ∧ b1 ≤ hi then
        match rest1 with
        | [] => (replChar, [])
        | b2 :: rest2 =>
          if 0x80 ≤ b2 ∧ b2 ≤ 0xBF then
            match rest2 with
            | [] => (replChar, [])
            | b3 :: rest3 =>
              if 0x80 ≤ b3 ∧ b3 ≤ 0xBF then
                (Char.ofNat ((b - 0xF0) * 262144 + (b1 - 0x80) * 4096 +
                    (b2 - 0x80) * 64 + (b3 - 0x80)), rest3)
              else (replChar, b3 :: rest3)
          else (replChar, b2 :: rest2)
      else (replChar, b1 :: rest1)
  else (replChar, rest)

theorem utf8Step_snd_length (b : Nat) (rest : List Nat) :
    (utf8Step b rest).2.length ≤ rest.length := by
  unfold utf8Step
  repeat' (first | split | simp_all)
  all_goals omega

/-- Iterate `utf8Step` with a fuel counter, used only to make the recursion
structural (the fuel is spent at most once per consumed byte, so a fuel of at
least the byte count never runs out; see `utf8DecodeReplace`). -/
def utf8DecodeReplaceAux : Nat → List Nat → List Char
  | _, [] => []
  | 0, _ :: _ => []
  | fuel + 1, b :: rest =>
    (utf8Step b rest).1 :: utf8DecodeReplaceAux fuel (utf8Step b rest).2

/-- Python `bs.decode("utf-8", errors="replace")`: iterate `utf8Step` over
the byte list.  Each step consumes at least the current byte
(`utf8Step_snd_length`), so a fuel equal to the list length is enough. -/
def utf8DecodeReplace (l : List Nat) : List Char :=
  utf8DecodeReplaceAux l.length l

/-- Source `get_stats` (src/bpe/base.py lines 12-21): counts of adjacent pairs of
`ids`, accumulated into `counts` when one is given.  NOTE: in the source the
`counts` parameter is declared `counts: dict | None` with NO default value,
although the docstring calls it optional; the call sites in
`src/bpe/basic.py` (lines 35 and 73) invoke `get_stats(ids)` with a single
argument, which therefore raises `TypeError` at run time.  The translations
of `train` and `encode` below account for that. -/
def get_stats (ids : List Nat) (counts : Option (List ((Nat × Nat) × Nat))) :
    List ((Nat × Nat) × Nat) :=
  (List.zip ids ids.tail).foldl
    (fun cs pair => dictInsert cs pair ((dictGet cs pair).getD 0 + 1))
    (counts.getD [])

/-- Source `merge` (src/bpe/base.py lines 24-41): single left-to-right cursor pass
replacing each non-overlapping occurrence of `pair` by `idx`.  The source
guard is `ids[i] == pair[0] and i < len(ids) - 1 and ids[i + 1] == pair[1]`
with the cursor advancing by 2 on a replacement and by 1 otherwise; at the
last position the bound check fails, which is the one-element case here. -/
def merge : List Nat → Nat × Nat → Nat → List Nat
  | [], _, _ => []
  | [a], _, _ => [a]
  | a :: b :: rest, pair, idx =>
    if a = pair.1 ∧ b = pair.2 then idx :: merge rest pair idx
    else a :: merge (b :: rest) pair idx

/-- The id → bytes table `{idx: bytes([idx]) for idx in range(256)}`. -/
def baseVocab : List (Nat × List Nat) :=
  (List.range 256).map fun i => (i, [i])

/-- The merge loop of `Tokenizer._build_vocab`:
`vocab[idx] = vocab[p0] + vocab[p1]` for each merge entry in insertion
order, a `KeyError` when a component id is absent (dict subscript). -/
def applyMerges (merges : List ((Nat × Nat) × Nat)) :
    Except PyErr (List (Nat × List Nat)) :=
  merges.foldlM
    (fun v e =>
      match dictGet v e.1.1, dictGet v e.1.2 with
      | some b0, some b1 => .ok (dictInsert v e.2 (b0 ++ b1))
      | _, _ => .error .keyError)
    baseVocab

/-- The special-token loop of `Tokenizer._build_vocab`:
`vocab[idx] = special.encode("utf-8")` for each entry in insertion order. -/
def overlaySpecials (special_tokens : List (List Char × Nat))
    (v1 : List (Nat × List Nat)) : List (Nat × List Nat) :=
  special_tokens.foldl (fun v s => dictInsert v s.2 (utf8Encode s.1)) v1

/-- Source `Tokenizer._build_vocab` (src/bpe/base.py lines 91-102): start from the
256 single-byte tokens, run the merge loop, then overlay the special
tokens. -/
def build_vocab (merges : List ((Nat × Nat) × Nat))
    (special_tokens : List (List Char × Nat)) :
    Except PyErr (List (Nat × List Nat)) :=
  match applyMerges merges with
  | .error e => .error e
  | .ok v1 => .ok (overlaySpecials special_tokens v1)

/-- The tokenizer state: `self.merges`, `self.patterns`,
`self.special_tokens` and `self.vocab` of the `Tokenizer` class. -/
structure Tokenizer where
  merges : List ((Nat × Nat) × Nat)
  patterns : List Char
  special_tokens : List (List Char × Nat)
  vocab : List (Nat × List Nat)
deriving DecidableEq

/-- The version string `self.__VERSION__ = "bpe v1.0"` (src/bpe/base.py line 89). -/
def VERSION : List Char := "bpe v1.0".toList

/-- Source `Tokenizer.__init__` (src/bpe/base.py lines 81-89): no merges, no
patterns, no special tokens, and `vocab = self._build_vocab()`, which on the
empty tables is exactly `baseVocab` (proved in
`build_vocab_empty_eq_baseVocab`). -/
def initState : Tokenizer :=
  { merges := [], patterns := [], special_tokens := [], vocab := baseVocab }

theorem build_vocab_empty_eq_baseVocab : build_vocab [] [] = .ok baseVocab := rfl

/-- Source `BaseTokenizer.train` (src/bpe/basic.py lines 22-52).  The source first
asserts `vocab_size >= 256` (AssertionError otherwise, the InvalidArgument of
the spec), turns the text into its byte values, and then runs
`for i in range(num_merges)` whose body begins with `stats = get_stats(ids)`.
Because `get_stats` declares `counts` without a default value, that call
raises `TypeError` on the first iteration whenever `num_merges ≥ 1`; only
`vocab_size = 256` completes, storing an empty merge table and the 256
single-byte vocab (special tokens and patterns are untouched). -/
def BaseTokenizer.train (st : Tokenizer) (text : List Char) (vocab_size : Nat) :
    Except PyErr Tokenizer :=
  if vocab_size < 256 then .error .assertionError
  else
    let _ids := utf8Encode text
    if vocab_size - 256 = 0 then
      .ok { st with merges := [], vocab := baseVocab }
    else .error .typeError

/-- Source `BaseTokenizer.encode` (src/bpe/basic.py lines 63-84).  The text becomes
its byte values; the merge loop `while len(ids) >= 2:` begins with
`stats = get_stats(ids)`, which raises `TypeError` (missing `counts`
argument), so any text of at least two bytes fails and shorter texts are
returned unmerged. -/
def BaseTokenizer.encode (st : Tokenizer) (text : List Char) :
    Except PyErr (List Nat) :=
  let ids := utf8Encode text
  if ids.length ≥ 2 then .error .typeError else .ok ids

/-- The list comprehension `[self.vocab[idx] for idx in ids]`: look every id
up left to right, raising `KeyError` at the first id absent from the
vocab. -/
def lookupAll (vocab : List (Nat × List Nat)) :
    List Nat → Except PyErr (List (List Nat))
  | [] => .ok []
  | idx :: rest =>
    match dictGet vocab idx with
    | none => .error .keyError
    | some bs =>
      match lookupAll vocab rest with
      | .error e => .error e
      | .ok bss => .ok (bs :: bss)

/-- Source `BaseTokenizer.decode` (src/bpe/basic.py lines 54-61): look up every id
(`KeyError` when absent, the UnknownTokenId of the spec), join the byte
strings, and decode the result as UTF-8 with `errors="replace"`. -/
def BaseTokenizer.decode (st : Tokenizer) (ids : List Nat) :
    Except PyErr (List Char) :=
  match lookupAll st.vocab ids with
  | .error e => .error e
  | .ok chunks => .ok (utf8DecodeReplace chunks.flatten)

/-- Source `Tokenizer.save` (src/bpe/base.py lines 122-142), restricted to the
authoritative `.model` file (the `.vocab` listing is write-only and never
read back): the version line, the patterns line, the special-token count,
one `name id` line per special token, then one `left right` line per merge
entry in insertion order (merge ids are not written). -/
def Tokenizer.save_model (st : Tokenizer) : List Char :=
  (VERSION ++ ['\n']) ++ (st.patterns ++ ['\n']) ++
    (natToString st.special_tokens.length ++ ['\n']) ++
    (st.special_tokens.map
      (fun s => s.1 ++ [' '] ++ natToString s.2 ++ ['\n'])).flatten ++
    (st.merges.map
      (fun e => natToString e.1.1 ++ [' '] ++ natToString e.1.2 ++ ['\n'])).flatten

/-- One merge line `idx1, idx2 = map(int, line.strip().split())`: strip and
split the line and convert both fields to integers.  Every malformed shape
(wrong field count, or a non-integer field) raises `ValueError`. -/
def parseMergeLine (line : List Char) : Except PyErr (Nat × Nat) :=
  match pySplit (pyStrip line) with
  | [a, b] =>
    match pyInt a, pyInt b with
    | .ok i1, .ok i2 => .ok (i1, i2)
    | _, _ => .error .valueError
  | _ => .error .valueError

/-- The merge-reading loop of `Tokenizer.load` (src/bpe/base.py lines
186-189) in the case `n_special_tokens = 0`, where the local `idx` still
holds the integer 256: each well-formed line appends (or, for a repeated
pair, overwrites) the binding `merges[(idx1, idx2)] = idx` and increments
`idx`. -/
def loadMerges (merges : List ((Nat × Nat) × Nat)) (idx : Nat) :
    List (List Char) → Except PyErr (List ((Nat × Nat) × Nat))
  | [] => .ok merges
  | line :: rest =>
    match parseMergeLine line with
    | .error e => .error e
    | .ok p => loadMerges (dictInsert merges p idx) (idx + 1) rest

/-- The merge-reading loop of `Tokenizer.load` in the case
`n_special_tokens ≥ 1`: the loop `for _ in range(n_special_tokens):` has
executed `special, idx = f.readline().strip().split()`, REBINDING the local
`idx` to the id string of the last special-token line.  The first well-formed
merge line then stores that string as the merge id and executes `idx += 1`,
which raises `TypeError` (str + int); the partially built local dict is
discarded with the exception.  With no merge lines the loop body never runs
and the empty table is kept. -/
def loadMergesClobbered : List (List Char) →
    Except PyErr (List ((Nat × Nat) × Nat))
  | [] => .ok []
  | line :: _ =>
    match parseMergeLine line with
    | .error e => .error e
    | .ok _ => .error .typeError

/-- The special-token loop of `Tokenizer.load` (src/bpe/base.py lines
181-184): read `n` lines, each `special, idx = line.strip().split()` (a
`ValueError` unless exactly two fields) followed by
`special_tokens[special] = int(idx)` (a `ValueError` on a non-integer id).
Returns the table and the unread remainder of the file. -/
def loadSpecials (specials : List (List Char × Nat)) :
    Nat → List Char → Except PyErr (List (List Char × Nat) × List Char)
  | 0, content => .ok (specials, content)
  | n + 1, content =>
    let r := pyReadLine content
    match pySplit (pyStrip r.1) with
    | [s, idxs] =>
      match pyInt idxs with
      | .ok i => loadSpecials (dictInsert specials s i) n r.2
      | .error e => .error e
    | _ => .error .valueError

/-- Source `Tokenizer.load` after `self.patterns` has been installed (src/bpe/base.py
lines 180-193): parse the special-token count, the special-token lines and
the merge lines, then assign `self.merges` and `self.special_tokens` and
recompute `self.vocab = self._build_vocab()` (whose `KeyError`, if any, is
raised after merges and special tokens are already installed).  The result
pairs the state after the call with the exception raised, if any. -/
def Tokenizer.loadTail (st1 : Tokenizer) (rest1 : List Char) :
    Tokenizer × Option PyErr :=
  let r2 := pyReadLine rest1
  match pyInt (pyStrip r2.1) with
  | .error e => (st1, some e)
  | .ok n =>
    match loadSpecials [] n r2.2 with
    | .error e => (st1, some e)
    | .ok sr =>
      match (if n = 0 then loadMerges [] 256 (pyLines sr.2)
             else loadMergesClobbered (pyLines sr.2)) with
      | .error e => (st1, some e)
      | .ok merges =>
        let st2 := { st1 with merges := merges, special_tokens := sr.1 }
        match build_vocab merges sr.1 with
        | .error e => (st2, some e)
        | .ok v => ({ st2 with vocab := v }, none)

/-- Source `Tokenizer.load` (src/bpe/base.py lines 166-193) on the CONTENT of the
model file (the `assert model_file.endswith(".model")` concerns only the file
name and is outside this model).  The first line is stripped and compared
with the version string: on mismatch the assert raises (the FormatError of
the spec) before any field of `self` is touched.  On a match,
`self.patterns` is immediately set to the stripped second line, so every
later exception leaves the new patterns installed. -/
def Tokenizer.load (st : Tokenizer) (content : List Char) :
    Tokenizer × Option PyErr :=
  let r1 := pyReadLine content
  if pyStrip r1.1 = VERSION then
    let r2 := pyReadLine r1.2
    Tokenizer.loadTail { st with patterns := pyStrip r2.1 } r2.2
  else (st, some .assertionError)

/-!  Concrete inputs used by the claim theorems below. -/

/-- The two-byte text `"ab"`. -/
def textAB : List Char := "ab".toList

/-- The two-byte text `"hi"`. -/
def textHI : List Char := "hi".toList

/-- A tokenizer state holding one merge entry and one special token, the
shape `train` would produce after a `load` had installed a special token
(and the shape the spec treats as ordinary). -/
def stWithBoth : Tokenizer :=
  { merges := [((97, 98), 256)], patterns := [],
    special_tokens := [("s".toList, 300)],
    vocab := dictInsert (dictInsert baseVocab 256 [97, 98]) 300 [115] }

/-- A model file whose merge lines repeat the same pair. -/
def dupPairFile : List Char := "bpe v1.0\n\n0\n1 2\n1 2\n".toList

/-- A model file with one special token and no merges (loadable by the
source, since the merge-reading loop never runs). -/
def specialOnlyFile : List Char := "bpe v1.0\n\n1\ns 300\n".toList

/-- A model file whose version line carries a trailing blank. -/
def paddedVersionFile : List Char := "bpe v1.0 \n\n0\n".toList

/-- The padded version line of `paddedVersionFile`, newline excluded. -/
def paddedVersionLine : List Char := "bpe v1.0 ".toList

/-- A model file with the correct version line, a patterns line, and a
non-integer special-token count. -/
def badCountFile : List Char := "bpe v1.0\npat\nxyz\n".toList

/-- The patterns line of `badCountFile`. -/
def patPAT : List Char := "pat".toList

/-- The merge-table invariant claimed by the spec: the k-th entry (0-based)
carries id 256 + k, hence ids are unique, strictly increasing and gap-free
from 256. -/
def idsGapFree (merges : List ((Nat × Nat) × Nat)) : Prop :=
  ∀ i (h : i < merges.length), (merges[i]).2 = 256 + i

/-- C1.  The claim asserts `decode(encode(text)) == text` for every text and
every derivation-invariant state, the freshly constructed state included.
The code violates it for every text of at least two bytes: `encode` calls
`get_stats(ids)` although `get_stats` declares its `counts` parameter
without a default, so the call raises `TypeError` instead of returning ids.
Here, on the fresh state and the text `"ab"`, encode-then-decode raises
`TypeError` rather than producing `"ab"`. -/
theorem C1_roundtrip_code_bug :
    Except.bind (BaseTokenizer.encode initState textAB)
      (BaseTokenizer.decode initState) = Except.error PyErr.typeError := by
  decide

/-- C3.  The claim asserts that loading the saved model file reproduces the
merge table, pattern string and special tokens for every state.  For the
state `stWithBoth` (one special token and one merge) the source instead
raises `TypeError`: the special-token loop of `load` rebinds the local merge
id counter `idx` to the id string read from the special-token line, and the
first merge line then executes `idx += 1` on a str.  The prior state is
returned unchanged (`initState` here, its patterns field being already
empty) rather than a reproduction of `stWithBoth`. -/
theorem C3_save_load_code_bug :
    Tokenizer.load initState (Tokenizer.save_model stWithBoth) =
      (initState, some PyErr.typeError) ∧
    (Tokenizer.load initState (Tokenizer.save_model stWithBoth)).1.merges ≠
      stWithBoth.merges := by
  decide

/-- Length of `merge`: the single pass never lengthens the sequence. -/
theorem merge_length_le (P : Nat × Nat) (R : Nat) :
    ∀ S, (merge S P R).length ≤ S.length
  | [] => by simp [merge]
  | [a] => by simp [merge]
  | a :: b :: rest => by
    by_cases h : a = P.1 ∧ b = P.2
    · have ih := merge_length_le P R rest
      simp only [merge, if_pos h, List.length_cons]
      omega
    · have ih := merge_length_le P R (b :: rest)
      simp only [merge, if_neg h, List.length_cons] at ih ⊢
      omega

/-- C5.  `merge` performs one left-to-right pass replacing non-overlapping
occurrences: on `[X, X, X]` the pair `(X, X)` merges at positions 0-1 and
leaves the final `X` (never `[X, R]` or `[R, R]`); the concrete scenario
`merge([1,2,3,1,2], (1,2), 4) = [4,3,4]` holds; and the output is never
longer than the input. -/
theorem C5_merge_single_pass :
    (∀ X R : Nat, merge [X, X, X] (X, X) R = [R, X]) ∧
    merge [1, 2, 3, 1, 2] (1, 2) 4 = [4, 3, 4] ∧
    ∀ S P R, (merge S P R).length ≤ S.length := by
  refine ⟨fun X R => ?_, by decide, fun S P R => merge_length_le P R S⟩
  simp [merge]

/-- C6.  The claim asserts that `train(text, vocabSize)` fails exactly when
`vocabSize < 256` and otherwise performs `vocabSize - 256` merge steps.  The
assert does reject `vocabSize = 255` with AssertionError (InvalidArgument),
but for `vocabSize = 257` on the text `"ab"` the single requested merge step
is never performed: the loop body raises `TypeError` because `get_stats` is
called without its required `counts` argument, so `train` also fails for
arguments the claim requires to succeed. -/
theorem C6_train_code_bug :
    BaseTokenizer.train initState textAB 257 = Except.error PyErr.typeError ∧
    BaseTokenizer.train initState textAB 255 = Except.error PyErr.assertionError := by
  decide

/-- C9.  The claim describes the merge loop of `encode` as stopping or
strictly shrinking the sequence each iteration.  On any text of at least two
bytes (here `"hi"`) the first iteration instead raises `TypeError` (the
`get_stats(ids)` call is missing its required `counts` argument), so the
loop never performs a merge or reaches its stopping test. -/
theorem C9_encode_loop_code_bug :
    BaseTokenizer.encode initState textHI = Except.error PyErr.typeError := by
  decide

/-- C10.  `load` is not atomic on parse errors: for any prior state, loading
a file with the correct version line, patterns line `"pat"` and a
non-integer special-token count raises `ValueError` while the file's
patterns string is already installed; merges, special tokens and vocab keep
their prior values (the returned state differs from the prior one only in
`patterns`). -/
theorem C10_load_not_atomic (st : Tokenizer) :
    Tokenizer.load st badCountFile =
      ({ st with patterns := patPAT }, some PyErr.valueError) := by
  rfl

/-- A model file whose first line is not the version string even after
stripping. -/
def badVersionFile : List Char := "nope\n".toList

/-- C7, counterexample.  The claim asserts that a file whose first line does
not EXACTLY equal the version string is rejected with FormatError, state
untouched.  `load` strips the line before comparing, so the file whose first
line is `"bpe v1.0 "` (trailing blank, hence not exactly the version string)
is accepted: the load completes without any error. -/
theorem C7_counterexample :
    (pyReadLine paddedVersionFile).1 = paddedVersionLine ++ ['\n'] ∧
    paddedVersionLine ≠ VERSION ∧
    (Tokenizer.load initState paddedVersionFile).2 = none := by
  decide

/-- C7, amended: for every prior state and every file whose first line does
not STRIP to the version string, `load` raises AssertionError (the
FormatError of the spec) and returns the prior state unchanged — the assert
runs before any field of `self` is assigned. -/
theorem C7_amended (st : Tokenizer) (content : List Char)
    (h : pyStrip (pyReadLine content).1 ≠ VERSION) :
    Tokenizer.load st content = (st, some PyErr.assertionError) := by
  simp only [Tokenizer.load]
  rw [if_neg h]

theorem C7_witness :
    Tokenizer.load initState badVersionFile =
      (initState, some PyErr.assertionError) :=
  C7_amended initState badVersionFile (by decide)

/-- Two distinct merge lines, used as the C2 witness input. -/
def twoMergeLinesFile : List Char := "1 2\n3 4\n".toList

theorem dictInsert_length_le {α β : Type} [DecidableEq α] (d : List (α × β)) (k : α) (v : β) :
    (dictInsert d k v).length ≤ d.length + 1 := by
  induction d with
  | nil => simp [dictInsert]
  | cons p d ih =>
    simp only [dictInsert, List.length_cons]
    split
    · simp
    · simp only [List.length_cons]
      omega

/-- A `dictInsert` that grew the dict appended the new binding at the end
(the key was absent). -/
theorem dictInsert_append_of_length {α β : Type} [DecidableEq α] (d : List (α × β)) (k : α)
    (v : β) (h : (dictInsert d k v).length = d.length + 1) :
    dictInsert d k v = d ++ [(k, v)] := by
  induction d with
  | nil => simp [dictInsert]
  | cons p d ih =>
    simp only [dictInsert, List.length_cons] at h ⊢
    by_cases hpk : p.1 = k
    · rw [if_pos hpk] at h
      simp only [List.length_cons] at h
      omega
    · rw [if_neg hpk] at h ⊢
      simp only [List.length_cons] at h
      rw [ih (by omega)]
      simp

theorem loadMerges_length_le :
    ∀ (lines : List (List Char)) (acc : List ((Nat × Nat) × Nat)) (idx : Nat)
      (m : List ((Nat × Nat) × Nat)),
      loadMerges acc idx lines = .ok m → m.length ≤ acc.length + lines.length
  | [], acc, idx, m => by
    intro h
    simp only [loadMerges] at h
    cases h
    simp
  | line :: rest, acc, idx, m => by
    intro h
    simp only [loadMerges] at h
    cases hp : parseMergeLine line with
    | error e => rw [hp] at h; cases h
    | ok p =>
      rw [hp] at h
      have h1 := loadMerges_length_le rest (dictInsert acc p idx) (idx + 1) m h
      have h2 := dictInsert_length_le acc p idx
      simp only [List.length_cons]
      omega

/-- When a run of the merge-reading loop produced as many entries as it read
lines, no line repeated an earlier pair, and the i-th entry received id
`idx + (i - acc.length)` (entries carried over from `acc` keep their ids). -/
theorem loadMerges_gapfree :
    ∀ (lines : List (List Char)) (acc : List ((Nat × Nat) × Nat)) (idx : Nat)
      (m : List ((Nat × Nat) × Nat)),
      loadMerges acc idx lines = .ok m → m.length = acc.length + lines.length →
      ∀ i (h : i < m.length),
        (m[i]).2 = if hi : i < acc.length then (acc[i]).2 else idx + (i - acc.length)
  | [], acc, idx, m => by
    intro h hlen i hi
    simp only [loadMerges] at h
    cases h
    rw [dif_pos hi]
  | line :: rest, acc, idx, m => by
    intro h hlen i hi
    simp only [loadMerges] at h
    cases hp : parseMergeLine line with
    | error e => rw [hp] at h; cases h
    | ok p =>
      rw [hp] at h
      have hle := loadMerges_length_le rest (dictInsert acc p idx) (idx + 1) m h
      have hinsle := dictInsert_length_le acc p idx
      simp only [List.length_cons] at hlen
      have hinslen : (dictInsert acc p idx).length = acc.length + 1 := by omega
      have happ := dictInsert_append_of_length acc p idx hinslen
      have ih := loadMerges_gapfree rest (dictInsert acc p idx) (idx + 1) m h
        (by rw [hinslen]; omega) i hi
      rw [happ] at ih
      by_cases h1 : i < acc.length
      · rw [dif_pos (by simp; omega)] at ih
        rw [dif_pos h1, ih]
        congr 1
        exact List.getElem_append_left h1
      · rw [dif_neg h1]
        by_cases h2 : i < acc.length + 1
        · have hieq : i = acc.length := by omega
          rw [dif_pos (by simp; omega)] at ih
          rw [ih]
          have hbound : i < (acc ++ [(p, idx)]).length := by simp; omega
          have hval : (acc ++ [(p, idx)])[i] = (p, idx) := by
            rw [List.getElem_append_right (by omega)]
            simp [hieq]
          rw [hval]
          omega
        · rw [dif_neg (by simp; omega)] at ih
          rw [ih]
          simp only [List.length_append, List.length_cons, List.length_nil] at *
          omega

/-- C2, counterexample.  The claim asserts that every state produced by a
successful `load` has merge ids 256, 257, ... in entry order.  Loading a
file whose merge lines repeat the pair `(1, 2)` succeeds, but the repeated
line overwrites the dict entry in place: the single resulting entry carries
id 257, not 256. -/
theorem C2_counterexample :
    (Tokenizer.load initState dupPairFile).2 = none ∧
    (Tokenizer.load initState dupPairFile).1.merges = [((1, 2), 257)] ∧
    ¬ idsGapFree (Tokenizer.load initState dupPairFile).1.merges := by
  refine ⟨by decide, by decide, ?_⟩
  intro hgap
  have h0 := hgap 0 (by decide)
  revert h0
  decide

/-- C2, amended: every state produced by a completed `train` has a gap-free
merge table (the only completed runs store the empty table), and a run of
the merge-reading loop of `load` that produced as many entries as merge
lines — that is, one in which no pair was repeated — assigns ids 256 + k in
entry order.  (A successful load with `n_special_tokens ≥ 1` stores the
empty merge table, which is trivially gap-free.) -/
theorem C2_amended :
    (∀ st text vs st', BaseTokenizer.train st text vs = .ok st' →
      idsGapFree st'.merges) ∧
    (∀ lines m, loadMerges [] 256 lines = .ok m → m.length = lines.length →
      idsGapFree m) := by
  constructor
  · intro st text vs st' h
    simp only [BaseTokenizer.train] at h
    split at h
    · cases h
    · split at h
      · cases h
        intro i hi
        simp at hi
      · cases h
  · intro lines m h hlen i hi
    have hfull := loadMerges_gapfree lines [] 256 m h (by simpa using hlen) i hi
    simpa using hfull

theorem C2_witness :
    idsGapFree ([((1, 2), 256), ((3, 4), 257)] : List ((Nat × Nat) × Nat)) ∧
    idsGapFree initState.merges := by
  constructor
  · exact C2_amended.2 (pyLines twoMergeLinesFile) _ (by decide) (by decide)
  · exact C2_amended.1 initState [] 256 initState (by decide)

theorem dictGet_dictInsert_self {α β : Type} [DecidableEq α] (d : List (α × β)) (k : α)
    (v : β) : dictGet (dictInsert d k v) k = some v := by
  induction d with
  | nil => simp [dictGet, dictInsert]
  | cons p d ih =>
    simp only [dictInsert]
    by_cases h : p.1 = k
    · rw [if_pos h]
      simp [dictGet, h]
    · rw [if_neg h]
      simp [dictGet, if_neg h, ih]

theorem dictGet_dictInsert_ne {α β : Type} [DecidableEq α] (d : List (α × β)) (k k' : α)
    (v : β) (h : k ≠ k') : dictGet (dictInsert d k v) k' = dictGet d k' := by
  induction d with
  | nil => simp [dictGet, dictInsert, h]
  | cons p d ih =>
    simp only [dictInsert]
    by_cases hp : p.1 = k
    · rw [if_pos hp]
      simp only [dictGet]
      rw [hp]
      simp [h]
    · rw [if_neg hp]
      simp only [dictGet, ih]

theorem overlaySpecials_cons (q : List Char × Nat) (s : List (List Char × Nat))
    (v0 : List (Nat × List Nat)) :
    overlaySpecials (q :: s) v0 =
      overlaySpecials s (dictInsert v0 q.2 (utf8Encode q.1)) := rfl

/-- Ids not used by any special token are untouched by the overlay loop. -/
theorem dictGet_overlay_not_mem (s : List (List Char × Nat)) (v0 : List (Nat × List Nat))
    (k : Nat) (h : k ∉ s.map (·.2)) : dictGet (overlaySpecials s v0) k = dictGet v0 k := by
  induction s generalizing v0 with
  | nil => rfl
  | cons q s ih =>
    simp only [List.map_cons, List.mem_cons] at h
    push_neg at h
    rw [overlaySpecials_cons, ih _ h.2, dictGet_dictInsert_ne _ _ _ _ (Ne.symm h.1)]

/-- Last write wins in the overlay loop: an entry whose id is not reused by
any LATER special-token entry ends up holding the UTF-8 bytes of its name,
whatever earlier entries did. -/
theorem overlay_mem_last (s : List (List Char × Nat)) :
    ∀ (v0 : List (Nat × List Nat)) (i : Nat) (hi : i < s.length),
      (∀ j (hj : j < s.length), i < j → (s[j]).2 ≠ (s[i]).2) →
      dictGet (overlaySpecials s v0) ((s[i]).2) = some (utf8Encode (s[i]).1) := by
  induction s with
  | nil =>
    intro v0 i hi hlater
    simp at hi
  | cons q s ih =>
    intro v0 i hi hlater
    cases i with
    | zero =>
      have hnot : q.2 ∉ s.map (·.2) := by
        intro hmem
        simp only [List.mem_map] at hmem
        obtain ⟨p, hp, hpe⟩ := hmem
        obtain ⟨j, hj, hje⟩ := List.getElem_of_mem hp
        have hne := hlater (j + 1) (by simp only [List.length_cons]; omega) (by omega)
        rw [List.getElem_cons_succ, hje, List.getElem_cons_zero] at hne
        exact hne (by rw [hpe])
      rw [overlaySpecials_cons]
      simp only [List.getElem_cons_zero]
      rw [dictGet_overlay_not_mem s _ _ hnot]
      exact dictGet_dictInsert_self v0 q.2 (utf8Encode q.1)
    | succ n =>
      have hn : n < s.length := by
        simp only [List.length_cons] at hi
        omega
      have hlater2 : ∀ j (hj : j < s.length), n < j → (s[j]).2 ≠ (s[n]).2 := by
        intro j hj hgt
        have hne := hlater (j + 1) (by simp only [List.length_cons]; omega) (by omega)
        rw [List.getElem_cons_succ, List.getElem_cons_succ] at hne
        exact hne
      rw [overlaySpecials_cons]
      simp only [List.getElem_cons_succ]
      exact ih _ n hn hlater2

/-- A `loadTail` that finished without an exception stored exactly the
output of `_build_vocab` on the tables it installed. -/
theorem loadTail_success (st1 : Tokenizer) (r : List Char) (st' : Tokenizer)
    (h : Tokenizer.loadTail st1 r = (st', none)) :
    build_vocab st'.merges st'.special_tokens = .ok st'.vocab := by
  simp only [Tokenizer.loadTail] at h
  split at h
  · simp [Prod.ext_iff] at h
  · split at h
    · simp [Prod.ext_iff] at h
    · split at h
      · simp [Prod.ext_iff] at h
      · split at h
        · simp [Prod.ext_iff] at h
        · injection h with h5 h6
          subst h5
          dsimp only
          assumption

theorem load_success_vocab_derivable (st : Tokenizer) (content : List Char) (st' : Tokenizer)
    (h : Tokenizer.load st content = (st', none)) :
    build_vocab st'.merges st'.special_tokens = .ok st'.vocab := by
  simp only [Tokenizer.load] at h
  split at h
  · exact loadTail_success _ _ _ h
  · simp [Prod.ext_iff] at h

theorem train_vocab_derivable_of_no_specials (st : Tokenizer) (text : List Char) (vs : Nat)
    (st' : Tokenizer) (h : BaseTokenizer.train st text vs = .ok st')
    (hsp : st.special_tokens = []) :
    build_vocab st'.merges st'.special_tokens = .ok st'.vocab := by
  simp only [BaseTokenizer.train] at h
  split at h
  · cases h
  · split at h
    · cases h
      simpa [hsp] using build_vocab_empty_eq_baseVocab
    · cases h

/-- In any vocab produced by `_build_vocab`, a special-token entry whose id
is not reused by a later special-token entry maps to the UTF-8 bytes of its
name (the special overlay runs after the merge loop, and within it a later
write to the same id wins). -/
theorem build_vocab_special_entries_last (m : List ((Nat × Nat) × Nat))
    (s : List (List Char × Nat)) (v : List (Nat × List Nat))
    (h : build_vocab m s = .ok v) :
    ∀ i (hi : i < s.length), (∀ j (hj : j < s.length), i < j → (s[j]).2 ≠ (s[i]).2) →
      dictGet v ((s[i]).2) = some (utf8Encode (s[i]).1) := by
  intro i hi hlater
  simp only [build_vocab] at h
  cases hf : applyMerges m with
  | error e =>
    rw [hf] at h
    cases h
  | ok v1 =>
    rw [hf] at h
    cases h
    exact overlay_mem_last s v1 i hi hlater

/-- The special-token name written in `specialOnlyFile`. -/
def tokS : List Char := "s".toList

/-- The state produced by loading `specialOnlyFile` into a fresh
tokenizer. -/
def C4loaded : Tokenizer :=
  { merges := [], patterns := [], special_tokens := [(tokS, 300)],
    vocab := baseVocab ++ [(300, [115])] }

/-- The state produced by `train(C4loaded, "", 256)`: the special-token
table survives but the freshly assigned vocab ignores it. -/
def C4trained : Tokenizer :=
  { merges := [], patterns := [], special_tokens := [(tokS, 300)],
    vocab := baseVocab }

/-- The special-token name of the first line of `dupIdFile`. -/
def tokA : List Char := "a".toList

/-- The special-token name that overwrites id 300 in `dupIdFile`. -/
def tokB : List Char := "b".toList

/-- The special-token name holding the un-reused id 301 in `mixedFile`. -/
def tokC : List Char := "c".toList

/-- A model file whose two special-token lines carry the same id. -/
def dupIdFile : List Char := "bpe v1.0\n\n2\na 300\nb 300\n".toList

/-- A model file mixing an un-reused special id (301) with a reused one
(300). -/
def mixedFile : List Char := "bpe v1.0\n\n3\nc 301\na 300\nb 300\n".toList

/-- The state produced by loading `mixedFile` into a fresh tokenizer: the
later `b → 300` overwrote the vocab entry of `a → 300` in place, while
`c → 301` and `b → 300` keep their names. -/
def mixedState : Tokenizer :=
  { merges := [], patterns := [],
    special_tokens := [(tokC, 301), (tokA, 300), (tokB, 300)],
    vocab := baseVocab ++ [(301, [99]), (300, [98])] }

/-- C4, counterexample.  The claim quantifies over every reachable state and
every special-token entry.  Two reachable violations: (a) load a file
carrying the special token `s → 300` (no merge lines, so the clobbered
merge loop never runs), then train with `vocab_size = 256` (zero merge
steps, so the broken `get_stats` call never runs) — `train` replaces the
vocab with the 256 single-byte entries without re-applying special tokens,
so the held vocab differs from the recomputed one and the entry `s → 300`
has no vocab entry at all; (b) load a file whose special-token lines reuse
id 300 — the load succeeds, the entry `a → 300` is in the table, but the
later `b → 300` overwrote vocab[300], so vocab[300] is not the UTF-8 bytes
of `a`. -/
theorem C4_counterexample :
    Tokenizer.load initState specialOnlyFile = (C4loaded, none) ∧
    BaseTokenizer.train C4loaded [] 256 = Except.ok C4trained ∧
    build_vocab C4trained.merges C4trained.special_tokens ≠ Except.ok C4trained.vocab ∧
    dictGet C4trained.vocab 300 ≠ some (utf8Encode tokS) ∧
    (Tokenizer.load initState dupIdFile).2 = none ∧
    (tokA, 300) ∈ (Tokenizer.load initState dupIdFile).1.special_tokens ∧
    dictGet (Tokenizer.load initState dupIdFile).1.vocab 300 ≠ some (utf8Encode tokA) := by
  decide

/-- C4, amended: recomputing the vocab reproduces the held table after
construction, after every successful `load`, and after every `train` that
started from a state with no special tokens (states reached by `train` from
a state WITH special tokens violate the original claim, counterexample
part (a)); and in every vocab produced by `_build_vocab` each special-token
entry whose id is not reused by a LATER special-token entry maps to the
UTF-8 bytes of its name (a later entry with the same id overwrites it,
counterexample part (b)). -/
theorem C4_amended :
    build_vocab [] [] = .ok initState.vocab ∧
    (∀ st content st', Tokenizer.load st content = (st', none) →
      build_vocab st'.merges st'.special_tokens = .ok st'.vocab) ∧
    (∀ st text vs st', BaseTokenizer.train st text vs = .ok st' →
      st.special_tokens = [] →
      build_vocab st'.merges st'.special_tokens = .ok st'.vocab) ∧
    (∀ m s v, build_vocab m s = .ok v →
      ∀ i (hi : i < s.length), (∀ j (hj : j < s.length), i < j → (s[j]).2 ≠ (s[i]).2) →
        dictGet v ((s[i]).2) = some (utf8Encode (s[i]).1)) :=
  ⟨build_vocab_empty_eq_baseVocab, load_success_vocab_derivable,
    train_vocab_derivable_of_no_specials, build_vocab_special_entries_last⟩

/-- The amended C4 exercised concretely: the loaded states `C4loaded` and
`mixedState` are reproduced by recomputation, and in `mixedState` (special
tokens `c → 301`, `a → 300`, `b → 300`) the un-shadowed entries keep their
names — `vocab[301]` is the bytes of `c` although id 300 is duplicated
elsewhere, and `vocab[300]` is the bytes of the last writer `b`. -/
theorem C4_witness :
    build_vocab C4loaded.merges C4loaded.special_tokens = .ok C4loaded.vocab ∧
    build_vocab mixedState.merges mixedState.special_tokens = .ok mixedState.vocab ∧
    build_vocab initState.merges initState.special_tokens = .ok initState.vocab ∧
    dictGet C4loaded.vocab 300 = some (utf8Encode tokS) ∧
    dictGet mixedState.vocab 301 = some (utf8Encode tokC) ∧
    dictGet mixedState.vocab 300 = some (utf8Encode tokB) := by
  refine ⟨C4_amended.2.1 initState specialOnlyFile C4loaded (by decide),
    C4_amended.2.1 initState mixedFile mixedState (by decide),
    C4_amended.2.2.1 initState [] 256 initState (by decide) rfl,
    C4_amended.2.2.2 C4loaded.merges C4loaded.special_tokens C4loaded.vocab
      (by decide) 0 (by decide) (by decide),
    C4_amended.2.2.2 mixedState.merges mixedState.special_tokens mixedState.vocab
      (by decide) 0 (by decide) (by decide),
    C4_amended.2.2.2 mixedState.merges mixedState.special_tokens mixedState.vocab
      (by decide) 2 (by decide) (by decide)⟩

/-- The list comprehension of `decode` succeeds when every id is present. -/
theorem lookupAll_ok_of_all_present (vocab : List (Nat × List Nat)) :
    ∀ ids, (∀ id ∈ ids, (dictGet vocab id).isSome = true) →
      ∃ l, lookupAll vocab ids = .ok l
  | [] => fun _ => ⟨[], rfl⟩
  | idx :: rest => by
    intro h
    have h1 := h idx (by simp)
    cases hg : dictGet vocab idx with
    | none =>
      rw [hg] at h1
      simp at h1
    | some bs =>
      obtain ⟨l, hl⟩ := lookupAll_ok_of_all_present vocab rest
        (fun id hid => h id (by simp [hid]))
      exact ⟨bs :: l, by simp [lookupAll, hg, hl]⟩

/-- The list comprehension of `decode` raises `KeyError` as soon as any id is
absent. -/
theorem lookupAll_error_of_absent (vocab : List (Nat × List Nat)) :
    ∀ ids, (∃ id ∈ ids, dictGet vocab id = none) →
      lookupAll vocab ids = .error .keyError
  | [] => by
    rintro ⟨id, hid, _⟩
    cases hid
  | idx :: rest => by
    rintro ⟨id, hid, hnone⟩
    cases hg : dictGet vocab idx with
    | none => simp [lookupAll, hg]
    | some bs =>
      rcases List.mem_cons.mp hid with rfl | hmem
      · rw [hg] at hnone
        cases hnone
      · have hrec := lookupAll_error_of_absent vocab rest ⟨id, hmem, hnone⟩
        simp [lookupAll, hg, hrec]

/-- C8.  `decode(ids)` raises `KeyError` (the UnknownTokenId of the spec)
exactly when some id is absent from the vocab; when every id is present it
returns a string (the UTF-8 stage is total, never an error); and an invalid
byte sequence — here the single byte 0xFF held by vocab entry 255 — is
rendered as the replacement character U+FFFD rather than raising. -/
theorem C8_decode_error_characterisation :
    (∀ st ids, BaseTokenizer.decode st ids = .error .keyError ↔
      ∃ id ∈ ids, dictGet st.vocab id = none) ∧
    (∀ st ids, (∃ text, BaseTokenizer.decode st ids = .ok text) ↔
      ∀ id ∈ ids, (dictGet st.vocab id).isSome = true) ∧
    BaseTokenizer.decode initState [255] = .ok [replChar] := by
  refine ⟨?_, ?_, by decide⟩
  · intro st ids
    constructor
    · intro h
      by_contra hno
      push_neg at hno
      obtain ⟨l, hl⟩ := lookupAll_ok_of_all_present st.vocab ids (fun id hid => by
        cases hg : dictGet st.vocab id with
        | none => exact absurd hg (hno id hid)
        | some _ => simp)
      simp [BaseTokenizer.decode, hl] at h
    · intro hex
      have herr := lookupAll_error_of_absent st.vocab ids hex
      simp [BaseTokenizer.decode, herr]
  · intro st ids
    constructor
    · rintro ⟨text, htext⟩ id hid
      by_contra hnone
      have hnone' : dictGet st.vocab id = none := by
        cases hg : dictGet st.vocab id with
        | none => rfl
        | some _ =>
          rw [hg] at hnone
          simp at hnone
      have herr := lookupAll_error_of_absent st.vocab ids ⟨id, hid, hnone'⟩
      simp [BaseTokenizer.decode, herr] at htext
    · intro hall
      obtain ⟨l, hl⟩ := lookupAll_ok_of_all_present st.vocab ids hall
      exact ⟨utf8DecodeReplace l.flatten, by simp [BaseTokenizer.decode, hl]⟩

theorem C8_witness :
    BaseTokenizer.decode initState [999] = Except.error PyErr.keyError ∧
    (∃ text, BaseTokenizer.decode initState [104] = Except.ok text) :=
  ⟨(C8_decode_error_characterisation.1 initState [999]).mpr ⟨999, by decide, by decide⟩,
   (C8_decode_error_characterisation.2.1 initState [104]).mpr (by decide)⟩

theorem mem_keys_dictInsert {α β : Type} [DecidableEq α] (d : List (α × β)) (k a : α)
    (v : β) : a ∈ (dictInsert d k v).map (·.1) ↔ a ∈ d.map (·.1) ∨ a = k := by
  induction d with
  | nil => simp [dictInsert]
  | cons p d ih =>
    simp only [dictInsert]
    by_cases h : p.1 = k
    · rw [if_pos h]
      subst h
      simp only [List.map_cons, List.mem_cons]
      tauto
    · rw [if_neg h]
      simp only [List.map_cons, List.mem_cons, ih]
      tauto

theorem get_stats_mem_keys (ids : List Nat) (p : Nat × Nat) :
    p ∈ (get_stats ids none).map (·.1) ↔ p ∈ List.zip ids ids.tail := by
  have hgen : ∀ (l : List (Nat × Nat)) (acc : List ((Nat × Nat) × Nat)),
      p ∈ (l.foldl (fun cs pair =>
          dictInsert cs pair ((dictGet cs pair).getD 0 + 1)) acc).map (·.1) ↔
        p ∈ acc.map (·.1) ∨ p ∈ l := by
    intro l
    induction l with
    | nil => simp
    | cons q l ih =>
      intro acc
      simp only [List.foldl_cons, ih, mem_keys_dictInsert, List.mem_cons]
      tauto
  simpa [get_stats] using hgen (List.zip ids ids.tail) []

theorem dictGet_mem {α β : Type} [DecidableEq α] (d : List (α × β)) (k : α) (v : β) :
    dictGet d k = some v → (k, v) ∈ d := by
  induction d with
  | nil =>
    intro h
    cases h
  | cons p d ih =>
    intro h
    simp only [dictGet] at h
    by_cases hp : p.1 = k
    · rw [if_pos hp] at h
      injection h with h2
      subst h2
      subst hp
      simp
    · rw [if_neg hp] at h
      exact List.mem_cons_of_mem _ (ih h)

theorem merge_length_lt (P : Nat × Nat) (R : Nat) :
    ∀ S, P ∈ List.zip S S.tail → (merge S P R).length < S.length
  | [] => by
    intro h
    cases h
  | [a] => by
    intro h
    cases h
  | a :: b :: rest => by
    intro hmem
    by_cases h : a = P.1 ∧ b = P.2
    · have hle := merge_length_le P R rest
      simp only [merge, if_pos h, List.length_cons]
      omega
    · have hP : P ∈ List.zip (b :: rest) rest := by
        simp only [List.tail_cons, List.zip_cons_cons, List.mem_cons] at hmem
        rcases hmem with rfl | hmem
        · exact absurd ⟨rfl, rfl⟩ h
        · exact hmem
      have ih := merge_length_lt P R (b :: rest) hP
      simp only [merge, if_neg h, List.length_cons] at ih ⊢
      omega

/-- The comparison underlying `min(stats, key=lambda p: merges.get(p, inf))`:
a missing rank is `float("inf")`. -/
def rankLt (a b : Option Nat) : Bool :=
  match a, b with
  | some x, some y => decide (x < y)
  | some _, none => true
  | none, _ => false

/-- Python `min(keys, key=...)`: scan left to right, replacing the current
best only on a strictly smaller key, so ties keep the earliest element. -/
def argminRank (merges : List ((Nat × Nat) × Nat)) (keys : List (Nat × Nat)) :
    Option (Nat × Nat) :=
  match keys with
  | [] => none
  | k :: ks => some (ks.foldl
      (fun best q => if rankLt (dictGet merges q) (dictGet merges best) then q else best) k)

theorem argminRank_mem (merges : List ((Nat × Nat) × Nat)) (keys : List (Nat × Nat))
    (p : Nat × Nat) (h : argminRank merges keys = some p) : p ∈ keys := by
  have hfold : ∀ (ks : List (Nat × Nat)) (best : Nat × Nat),
      ks.foldl (fun best q =>
        if rankLt (dictGet merges q) (dictGet merges best) then q else best) best ∈
        best :: ks := by
    intro ks
    induction ks with
    | nil => intro best; simp
    | cons q ks ih =>
      intro best
      simp only [List.foldl_cons]
      by_cases hq : rankLt (dictGet merges q) (dictGet merges best) = true
      · rw [if_pos hq]
        have := ih q
        simp only [List.mem_cons] at this ⊢
        tauto
      · rw [if_neg hq]
        have := ih best
        simp only [List.mem_cons] at this ⊢
        tauto
  match keys, h with
  | k :: ks, h =>
    injection h with h2
    subst h2
    exact hfold ks k

/-- The merge loop of `BaseTokenizer.encode` (src/bpe/basic.py lines 71-83)
with the call `get_stats(ids)` read as `get_stats(ids, None)`, the default
the docstring of `get_stats` documents (the code as written raises
`TypeError`; see `BaseTokenizer.encode` and C1/C9).  Python selects
`min(stats, key=lambda p: self.merges.get(p, float("inf")))` over the keys
of `stats`, breaks when the selected pair is not in the merge table, and
otherwise rewrites with `merge`.  The fuel argument only makes the
recursion structural: each executed merge strictly shortens `ids`
(`merge_length_lt`), so a fuel of at least `ids.length` never runs out
(`encodeLoopFixed_fuel_irrelevant`); the `argminRank = none` arm is dead
code, since `ids.length ≥ 2` makes the key list nonempty. -/
def encodeLoopFixed (merges : List ((Nat × Nat) × Nat)) : Nat → List Nat → List Nat
  | 0, ids => ids
  | fuel + 1, ids =>
    if ids.length ≥ 2 then
      match argminRank merges ((get_stats ids none).map (·.1)) with
      | none => ids
      | some pair =>
        match dictGet merges pair with
        | none => ids
        | some idx => encodeLoopFixed merges fuel (merge ids pair idx)
    else ids

/-- The source `BaseTokenizer.encode` with the `get_stats` call repaired as its
docstring documents. -/
def encodeFixed (st : Tokenizer) (text : List Char) : List Nat :=
  encodeLoopFixed st.merges (utf8Encode text).length (utf8Encode text)

/-- The termination argument intended by C9, formally: the repaired merge loop
reaches its fixpoint within `ids.length` iterations (each executed merge
strictly shortens the sequence), so any two sufficient fuels agree. -/
theorem encodeLoopFixed_fuel_irrelevant (merges : List ((Nat × Nat) × Nat)) :
    ∀ (fuel1 fuel2 : Nat) (ids : List Nat), ids.length ≤ fuel1 → ids.length ≤ fuel2 →
      encodeLoopFixed merges fuel1 ids = encodeLoopFixed merges fuel2 ids
  | 0, fuel2, ids => by
    intro h1 h2
    have hnil : ids = [] := List.length_eq_zero.mp (by omega)
    subst hnil
    cases fuel2 with
    | zero => rfl
    | succ fuel2 => simp [encodeLoopFixed]
  | fuel1 + 1, 0, ids => by
    intro h1 h2
    have hnil : ids = [] := List.length_eq_zero.mp (by omega)
    subst hnil
    simp [encodeLoopFixed]
  | fuel1 + 1, fuel2 + 1, ids => by
    intro h1 h2
    simp only [encodeLoopFixed]
    by_cases hlen : ids.length ≥ 2
    · rw [if_pos hlen, if_pos hlen]
      split
      · rfl
      · rename_i pair hmin
        split
        · rfl
        · rename_i idx hrank
          have hocc : pair ∈ List.zip ids ids.tail :=
            (get_stats_mem_keys ids pair).mp (argminRank_mem _ _ _ hmin)
          have hlt := merge_length_lt pair idx ids hocc
          exact encodeLoopFixed_fuel_irrelevant merges fuel1 fuel2 (merge ids pair idx)
            (by omega) (by omega)
    · rw [if_neg hlen, if_neg hlen]

/-- The two valid scalar-value ranges, from the validity field of `Char`. -/
theorem char_valid_range (c : Char) :
    c.toNat < 0xD800 ∨ (0xE000 ≤ c.toNat ∧ c.toNat < 0x110000) := by
  have h := c.valid
  have he : c.toNat = c.val.toNat := rfl
  simp [UInt32.isValidChar, Nat.isValidChar] at h
  rcases h with h | ⟨h1, h2⟩
  · left; omega
  · right; omega

/-- Lemma: `utf8Step` inverts `utf8EncodeChar`: fed the first byte of the encoding
of a character and then its remaining bytes, it returns that character and
consumes exactly those bytes. -/
theorem utf8Step_encodeChar (c : Char) (rest : List Nat) :
    ∀ b bs, utf8EncodeChar c = b :: bs → utf8Step b (bs ++ rest) = (c, rest) := by
  intro b bs henc
  have hval := char_valid_range c
  simp only [utf8EncodeChar] at henc
  split_ifs at henc with h1 h2 h3
  · -- 1 byte: c.toNat < 0x80
    injection henc with hb hbs
    subst hb
    subst hbs
    simp only [List.nil_append]
    have hc : c.toNat < 0x80 := h1
    simp only [utf8Step, if_pos hc, Char.ofNat_toNat]
  · -- 2 bytes: 0x80 ≤ c.toNat < 0x800
    injection henc with hb hbs
    subst hb
    subst hbs
    simp only [List.cons_append, List.nil_append]
    have hb1 : ¬ (0xC0 + c.toNat / 64 < 0x80) := by omega
    have hb2 : ¬ (0xC0 + c.toNat / 64 < 0xC2) := by omega
    have hb3 : 0xC0 + c.toNat / 64 ≤ 0xDF := by omega
    have hcont : 0x80 ≤ 0x80 + c.toNat % 64 ∧ 0x80 + c.toNat % 64 ≤ 0xBF := by omega
    simp only [utf8Step, if_neg hb1, if_neg hb2, if_pos hb3, if_pos hcont]
    have harith : (0xC0 + c.toNat / 64 - 0xC0) * 64 + (0x80 + c.toNat % 64 - 0x80) =
        c.toNat := by omega
    rw [harith, Char.ofNat_toNat]
  · -- 3 bytes: 0x800 ≤ c.toNat < 0x10000, surrogates excluded by validity
    injection henc with hb hbs
    subst hb
    subst hbs
    simp only [List.cons_append, List.nil_append]
    have hb1 : ¬ (0xE0 + c.toNat / 4096 < 0x80) := by omega
    have hb2 : ¬ (0xE0 + c.toNat / 4096 < 0xC2) := by omega
    have hb3 : ¬ (0xE0 + c.toNat / 4096 ≤ 0xDF) := by omega
    have hb4 : 0xE0 + c.toNat / 4096 ≤ 0xEF := by omega
    have hcont1 :
        (if 0xE0 + c.toNat / 4096 = 0xE0 then 0xA0 else 0x80) ≤
            0x80 + c.toNat / 64 % 64 ∧
          0x80 + c.toNat / 64 % 64 ≤
            (if 0xE0 + c.toNat / 4096 = 0xED then 0x9F else 0xBF) := by
      constructor <;> split_ifs <;> omega
    have hcont2 : 0x80 ≤ 0x80 + c.toNat % 64 ∧ 0x80 + c.toNat % 64 ≤ 0xBF := by omega
    simp only [utf8Step, if_neg hb1, if_neg hb2, if_neg hb3, if_pos hb4,
      if_pos hcont1, if_pos hcont2]
    have harith : (0xE0 + c.toNat / 4096 - 0xE0) * 4096 +
        (0x80 + c.toNat / 64 % 64 - 0x80) * 64 + (0x80 + c.toNat % 64 - 0x80) =
        c.toNat := by omega
    rw [harith, Char.ofNat_toNat]
  · -- 4 bytes: 0x10000 ≤ c.toNat < 0x110000
    injection henc with hb hbs
    subst hb
    subst hbs
    simp only [List.cons_append, List.nil_append]
    have hup : c.toNat < 0x110000 := by omega
    have hb1 : ¬ (0xF0 + c.toNat / 262144 < 0x80) := by omega
    have hb2 : ¬ (0xF0 + c.toNat / 262144 < 0xC2) := by omega
    have hb3 : ¬ (0xF0 + c.toNat / 262144 ≤ 0xDF) := by omega
    have hb4 : ¬ (0xF0 + c.toNat / 262144 ≤ 0xEF) := by omega
    have hb5 : 0xF0 + c.toNat / 262144 ≤ 0xF4 := by omega
    have hcont1 :
        (if 0xF0 + c.toNat / 262144 = 0xF0 then 0x90 else 0x80) ≤
            0x80 + c.toNat / 4096 % 64 ∧
          0x80 + c.toNat / 4096 % 64 ≤
            (if 0xF0 + c.toNat / 262144 = 0xF4 then 0x8F else 0xBF) := by
      constructor <;> split_ifs <;> omega
    have hcont2 : 0x80 ≤ 0x80 + c.toNat / 64 % 64 ∧ 0x80 + c.toNat / 64 % 64 ≤ 0xBF := by
      omega
    have hcont3 : 0x80 ≤ 0x80 + c.toNat % 64 ∧ 0x80 + c.toNat % 64 ≤ 0xBF := by omega
    simp only [utf8Step, if_neg hb1, if_neg hb2, if_neg hb3, if_neg hb4, if_pos hb5,
      if_pos hcont1, if_pos hcont2, if_pos hcont3]
    have harith : (0xF0 + c.toNat / 262144 - 0xF0) * 262144 +
        (0x80 + c.toNat / 4096 % 64 - 0x80) * 4096 +
        (0x80 + c.toNat / 64 % 64 - 0x80) * 64 + (0x80 + c.toNat % 64 - 0x80) =
        c.toNat := by omega
    rw [harith, Char.ofNat_toNat]

theorem utf8EncodeChar_length_pos (c : Char) : 0 < (utf8EncodeChar c).length := by
  simp only [utf8EncodeChar]
  split_ifs <;> simp

theorem utf8Encode_cons (c : Char) (s : List Char) :
    utf8Encode (c :: s) = utf8EncodeChar c ++ utf8Encode s := by
  simp [utf8Encode]

theorem length_le_utf8Encode_length (s : List Char) :
    s.length ≤ (utf8Encode s).length := by
  induction s with
  | nil => simp [utf8Encode]
  | cons c s ih =>
    rw [utf8Encode_cons]
    have hpos := utf8EncodeChar_length_pos c
    simp only [List.length_cons, List.length_append]
    omega

/-- With fuel at least the character count (each character costs at least
one byte of input), decoding inverts encoding. -/
theorem utf8DecodeAux_encode :
    ∀ (s : List Char) (fuel : Nat), s.length ≤ fuel →
      utf8DecodeReplaceAux fuel (utf8Encode s) = s
  | [], fuel => by
    intro h
    have : utf8Encode [] = [] := rfl
    rw [this]
    cases fuel <;> rfl
  | c :: s, 0 => by
    intro h
    simp at h
  | c :: s, fuel + 1 => by
    intro h
    cases henc : utf8EncodeChar c with
    | nil =>
      have hpos := utf8EncodeChar_length_pos c
      rw [henc] at hpos
      simp at hpos
    | cons b bs =>
      have hstep := utf8Step_encodeChar c (utf8Encode s) b bs henc
      have hconc : utf8Encode (c :: s) = b :: (bs ++ utf8Encode s) := by
        rw [utf8Encode_cons, henc]
        rfl
      rw [hconc]
      simp only [utf8DecodeReplaceAux, hstep]
      have hlen : s.length ≤ fuel := by
        simp only [List.length_cons] at h
        omega
      rw [utf8DecodeAux_encode s fuel hlen]

/-- Python UTF-8 decoding with `errors="replace"` inverts UTF-8 encoding:
encoded output never exercises the replacement path. -/
theorem utf8DecodeReplace_encode (s : List Char) :
    utf8DecodeReplace (utf8Encode s) = s :=
  utf8DecodeAux_encode s (utf8Encode s).length (length_le_utf8Encode_length s)

/-- The concatenation `b"".join(...)` over the vocab entries of a list of ids. -/
def expandIds (vocab : List (Nat × List Nat)) (ids : List Nat) : List Nat :=
  (ids.map fun id => (dictGet vocab id).getD []).flatten

theorem expandIds_cons (vocab : List (Nat × List Nat)) (x : Nat) (xs : List Nat) :
    expandIds vocab (x :: xs) = (dictGet vocab x).getD [] ++ expandIds vocab xs := by
  simp [expandIds]

/-- The derivation invariant of the spec (section 3): byte ids map to their
singleton byte, and the id of each merge entry maps to the concatenation of
the byte strings of its components. -/
def vocabDerived (st : Tokenizer) : Prop :=
  (∀ b, b < 256 → dictGet st.vocab b = some [b]) ∧
  (∀ e ∈ st.merges, ∃ b0 b1, dictGet st.vocab e.1.1 = some b0 ∧
    dictGet st.vocab e.1.2 = some b1 ∧ dictGet st.vocab e.2 = some (b0 ++ b1))

theorem merge_mem (P : Nat × Nat) (R : Nat) :
    ∀ S x, x ∈ merge S P R → x = R ∨ x ∈ S
  | [], x => by
    intro h
    cases h
  | [a], x => by
    intro h
    simp only [merge] at h
    right
    exact h
  | a :: b :: rest, x => by
    intro h
    by_cases hc : a = P.1 ∧ b = P.2
    · simp only [merge, if_pos hc, List.mem_cons] at h
      rcases h with rfl | h
      · exact Or.inl rfl
      · rcases merge_mem P R rest x h with rfl | h2
        · exact Or.inl rfl
        · exact Or.inr (by simp [h2])
    · simp only [merge, if_neg hc, List.mem_cons] at h
      rcases h with rfl | h
      · exact Or.inr (by simp)
      · rcases merge_mem P R (b :: rest) x h with rfl | h2
        · exact Or.inl rfl
        · exact Or.inr (by simp [List.mem_cons.mp h2])

/-- Replacing an adjacent pair by an id whose byte string is the
concatenation of the pair's byte strings leaves the expansion unchanged. -/
theorem expand_merge (vocab : List (Nat × List Nat)) (P : Nat × Nat) (idx : Nat)
    (b0 b1 : List Nat) (h0 : dictGet vocab P.1 = some b0)
    (h1 : dictGet vocab P.2 = some b1) (h2 : dictGet vocab idx = some (b0 ++ b1)) :
    ∀ S, expandIds vocab (merge S P idx) = expandIds vocab S
  | [] => rfl
  | [a] => rfl
  | a :: b :: rest => by
    by_cases hc : a = P.1 ∧ b = P.2
    · simp only [merge, if_pos hc]
      rw [expandIds_cons, expandIds_cons, expandIds_cons,
        expand_merge vocab P idx b0 b1 h0 h1 h2 rest]
      rw [hc.1, hc.2, h0, h1, h2]
      simp
    · simp only [merge, if_neg hc]
      rw [expandIds_cons, expandIds_cons,
        expand_merge vocab P idx b0 b1 h0 h1 h2 (b :: rest)]

/-- The repaired merge loop preserves both the everywhere-defined property
of the working ids and their byte expansion. -/
theorem encodeLoopFixed_expand (st : Tokenizer) (hder : vocabDerived st) :
    ∀ (fuel : Nat) (ids : List Nat),
      (∀ id ∈ ids, (dictGet st.vocab id).isSome = true) →
      (∀ id ∈ encodeLoopFixed st.merges fuel ids,
        (dictGet st.vocab id).isSome = true) ∧
      expandIds st.vocab (encodeLoopFixed st.merges fuel ids) = expandIds st.vocab ids
  | 0, ids => fun h => ⟨h, rfl⟩
  | fuel + 1, ids => by
    intro hall
    simp only [encodeLoopFixed]
    by_cases hlen : ids.length ≥ 2
    · rw [if_pos hlen]
      split
      · exact ⟨hall, rfl⟩
      · rename_i pair hmin
        split
        · exact ⟨hall, rfl⟩
        · rename_i idx hrank
          have hmem : (pair, idx) ∈ st.merges := dictGet_mem _ _ _ hrank
          obtain ⟨b0, b1, hb0, hb1, hb2⟩ := hder.2 (pair, idx) hmem
          have hpres : ∀ id ∈ merge ids pair idx, (dictGet st.vocab id).isSome = true := by
            intro id hid
            rcases merge_mem pair idx ids id hid with rfl | hin
            · rw [hb2]
              rfl
            · exact hall id hin
          have ih := encodeLoopFixed_expand st hder fuel (merge ids pair idx) hpres
          exact ⟨ih.1, by rw [ih.2, expand_merge st.vocab pair idx b0 b1 hb0 hb1 hb2]⟩
    · rw [if_neg hlen]
      exact ⟨hall, rfl⟩

theorem utf8EncodeChar_lt_256 (c : Char) : ∀ b ∈ utf8EncodeChar c, b < 256 := by
  intro b hb
  have hval := char_valid_range c
  simp only [utf8EncodeChar] at hb
  split_ifs at hb with h1 h2 h3
  · simp at hb
    omega
  · simp at hb
    rcases hb with rfl | rfl <;> omega
  · simp at hb
    rcases hb with rfl | rfl | rfl <;> omega
  · simp at hb
    rcases hb with rfl | rfl | rfl | rfl <;> omega

theorem utf8Encode_lt_256 (s : List Char) : ∀ b ∈ utf8Encode s, b < 256 := by
  intro b hb
  simp only [utf8Encode, List.mem_flatten] at hb
  obtain ⟨l, hl, hbl⟩ := hb
  simp only [List.mem_map] at hl
  obtain ⟨c, _, rfl⟩ := hl
  exact utf8EncodeChar_lt_256 c b hbl

theorem expandIds_bytes (vocab : List (Nat × List Nat))
    (hbyte : ∀ b, b < 256 → dictGet vocab b = some [b]) :
    ∀ bs, (∀ b ∈ bs, b < 256) → expandIds vocab bs = bs
  | [] => fun _ => rfl
  | b :: bs => by
    intro h
    rw [expandIds_cons, hbyte b (h b (by simp)),
      expandIds_bytes vocab hbyte bs (fun x hx => h x (by simp [hx]))]
    rfl

theorem lookupAll_all_present_eq (vocab : List (Nat × List Nat)) :
    ∀ ids, (∀ id ∈ ids, (dictGet vocab id).isSome = true) →
      lookupAll vocab ids = .ok (ids.map fun id => (dictGet vocab id).getD [])
  | [] => fun _ => rfl
  | idx :: rest => by
    intro h
    have h1 := h idx (by simp)
    cases hg : dictGet vocab idx with
    | none =>
      rw [hg] at h1
      simp at h1
    | some bs =>
      have hrec := lookupAll_all_present_eq vocab rest (fun id hid => h id (by simp [hid]))
      simp [lookupAll, hg, hrec]

/-- The round-trip contract of the spec (C1), established for the repaired
encode: on every state satisfying the derivation invariant,
`decode(encode(text))` returns exactly `text`. -/
theorem decode_encodeFixed_roundtrip (st : Tokenizer) (hder : vocabDerived st)
    (text : List Char) :
    BaseTokenizer.decode st (encodeFixed st text) = .ok text := by
  have hbytes := utf8Encode_lt_256 text
  have hall0 : ∀ id ∈ utf8Encode text, (dictGet st.vocab id).isSome = true := by
    intro id hid
    rw [hder.1 id (hbytes id hid)]
    rfl
  have hloop := encodeLoopFixed_expand st hder (utf8Encode text).length
    (utf8Encode text) hall0
  have hexp0 : expandIds st.vocab (utf8Encode text) = utf8Encode text :=
    expandIds_bytes st.vocab hder.1 (utf8Encode text) hbytes
  have hlk := lookupAll_all_present_eq st.vocab
    (encodeLoopFixed st.merges (utf8Encode text).length (utf8Encode text)) hloop.1
  simp only [BaseTokenizer.decode, encodeFixed]
  rw [hlk]
  have hflat : ((encodeLoopFixed st.merges (utf8Encode text).length
      (utf8Encode text)).map fun id => (dictGet st.vocab id).getD []).flatten =
      utf8Encode text := by
    have h2 := hloop.2
    rw [hexp0] at h2
    simpa [expandIds] using h2
  simp only [hflat, utf8DecodeReplace_encode]

/-- The freshly constructed state satisfies the derivation invariant. -/
theorem initState_vocabDerived : vocabDerived initState :=
  ⟨by decide, by simp [initState]⟩

/-- C1's intended property, witnessed concretely: on the fresh state the
repaired codec round-trips. -/
theorem decode_encodeFixed_roundtrip_init (text : List Char) :
    BaseTokenizer.decode initState (encodeFixed initState text) = .ok text :=
  decode_encodeFixed_roundtrip initState initState_vocabDerived text

/-- A trained-shape state with the single merge `(97, 97) → 256`. -/
def stAA : Tokenizer :=
  { merges := [((97, 97), 256)], patterns := [], special_tokens := [],
    vocab := dictInsert baseVocab 256 [97, 97] }

/-- The text of concrete scenario 3 restricted to one merge. -/
def textAAAB : List Char := "aaab".toList

/-- The repaired encode is executable and replays the learned merge: on
`"aaab"` with the single merge `(97, 97) → 256` it merges the leftmost
occurrence (non-overlapping scan), and decode inverts it. -/
theorem encodeFixed_eval :
    encodeFixed stAA textAAAB = [256, 97, 98] ∧
    BaseTokenizer.decode stAA [256, 97, 98] = .ok textAAAB := by
  decide
